import Mathlib

/-!
NativeBufferStore.

A verification development for `cpp/NativeBufferStore.{h,cpp}` of
react-native-onyx: the in-memory staging buffer that the JS thread fills with
`set` and the worker runtime empties with `drain`.

The embedding is sequential: every method body runs under the store's
`std::shared_mutex`, so a call is one step from a store state to a result and
a store state.  The container `std::unordered_map<std::string,
NativeBufferEntry>` is embedded as its list of nodes in iteration order,
together with the uniqueness of its keys and the size its bucket array has
been grown for.  The iteration order of the C++ container is
implementation-defined; the embedding fixes one (a new key goes to the front,
an assigned key keeps its node).
-/

namespace onyx

/-- Entry types, `enum class NativeEntryType`. -/
inductive NativeEntryType where
  | Set
  | Merge
  deriving DecidableEq, Repr

/-- A single buffer entry, `struct NativeBufferEntry`. -/
structure NativeBufferEntry where
  key : String
  valueJSON : String
  entryType : NativeEntryType
  replaceNullPatchesJSON : String
  deriving DecidableEq, Repr

/-- A value-initialised entry, as `operator[]` creates for a missing key:
empty strings and the enumerator of value zero. -/
def NativeBufferEntry.valueInit : NativeBufferEntry :=
  { key := "", valueJSON := "", entryType := NativeEntryType.Set, replaceNullPatchesJSON := "" }

/-- The entry left behind by `std::move(entry)`: the strings are moved out
(left empty, as the common standard libraries leave them), the enumerator is
copied. -/
def NativeBufferEntry.movedFrom (entry : NativeBufferEntry) : NativeBufferEntry :=
  { key := "", valueJSON := "", entryType := entry.entryType, replaceNullPatchesJSON := "" }

/-- The result type of `entries()` and `drain()`,
`std::vector<std::pair<std::string, NativeBufferEntry>>`. -/
abbrev EntryVector := List (String × NativeBufferEntry)

/-- The container `std::unordered_map<std::string, NativeBufferEntry>`: its
nodes in iteration order, no two with the same key, and its bucket array.
The bucket array is recorded by `bucketsFor`, the number of nodes it has been
grown for: 0 in a default-constructed container, raised by an insertion that
exceeds it, and kept by `erase` and `clear`, which free nodes only.  The
bucket count itself is an implementation-defined nondecreasing function of
this number (with libstdc++ 1 bucket for 0, 13 for 1 to 13, 29 for 14 to 29). -/
structure UnorderedMap where
  nodes : List (String × NativeBufferEntry)
  unique : (nodes.map Prod.fst).Nodup
  bucketsFor : Nat

namespace UnorderedMap

/-- A default-constructed container. -/
def empty : UnorderedMap := ⟨[], List.nodup_nil, 0⟩

/-- The call `find(key)`: the node with that key, `none` for `end()`. -/
def find (m : UnorderedMap) (key : String) : Option (String × NativeBufferEntry) :=
  m.nodes.find? (fun node => node.1 == key)

/-- The call `size()`. -/
def size (m : UnorderedMap) : Nat := m.nodes.length

/-- The lookup half of `operator[]`: a missing key gets a node holding a
value-initialised entry, and the bucket array grows when the nodes outnumber
what it was grown for; a key that is present leaves the container as it is. -/
def index (m : UnorderedMap) (key : String) : UnorderedMap :=
  match h : m.find key with
  | some _ => m
  | none =>
    ⟨(key, NativeBufferEntry.valueInit) :: m.nodes, by
      simp only [find, List.find?_eq_none] at h
      simp only [List.map_cons, List.nodup_cons]
      refine ⟨?_, m.unique⟩
      intro hk
      obtain ⟨node, hn, hkey⟩ := List.mem_map.mp hk
      exact h node hn (by simp [hkey]),
     max m.bucketsFor (m.nodes.length + 1)⟩

/-- The assignment through the reference that `operator[]` returns: the node
of `key` keeps its place and gets the new entry; the bucket array is as it was. -/
def assign (m : UnorderedMap) (key : String) (entry : NativeBufferEntry) : UnorderedMap :=
  ⟨m.nodes.map (fun node => if node.1 == key then (node.1, entry) else node), by
    have hkeys : (m.nodes.map (fun node => if node.1 == key then (node.1, entry) else node)).map
        Prod.fst = m.nodes.map Prod.fst := by
      rw [List.map_map]
      apply List.map_congr_left
      intro node _
      show (if node.1 == key then (node.1, entry) else node).1 = node.1
      split <;> rfl
    rw [hkeys]
    exact m.unique,
   m.bucketsFor⟩

/-- The call `erase(key)`: the number of nodes removed and the container
without them, its bucket array as it was. -/
def erase (m : UnorderedMap) (key : String) : Nat × UnorderedMap :=
  (m.nodes.countP (fun node => node.1 == key),
   ⟨m.nodes.filter (fun node => !(node.1 == key)), by
     have hsub : List.Sublist ((m.nodes.filter (fun node => !(node.1 == key))).map Prod.fst)
         (m.nodes.map Prod.fst) := List.Sublist.map _ (List.filter_sublist _)
     exact List.Nodup.sublist hsub m.unique,
    m.bucketsFor⟩)

/-- The call `clear()`: every node is destroyed, the bucket array is kept. -/
def clear (m : UnorderedMap) : UnorderedMap := ⟨[], List.nodup_nil, m.bucketsFor⟩

/-- The range-for of `drain()` over the container, with `result` the vector
built so far: each node's key is copied (it is `const` in the node) and its
entry is moved to the back of `result`, which leaves a moved-from entry in the
node.  Returns the vector and the nodes as the loop leaves them. -/
def moveOut : List (String × NativeBufferEntry) → EntryVector →
    EntryVector × List (String × NativeBufferEntry)
  | [], result => (result, [])
  | (key, entry) :: rest, result =>
    ((moveOut rest (result ++ [(key, entry)])).1,
     (key, entry.movedFrom) :: (moveOut rest (result ++ [(key, entry)])).2)

/-- The range-for of `entries()` over the container, with `result` the vector
built so far: each node is copied to the back of `result`. -/
def copyOut : List (String × NativeBufferEntry) → EntryVector → EntryVector
  | [], result => result
  | (key, entry) :: rest, result => copyOut rest (result ++ [(key, entry)])

/-- The container after the range-for of `drain()`: the same keys, every
entry moved from. -/
def afterMoveOut (m : UnorderedMap) : UnorderedMap :=
  ⟨(moveOut m.nodes []).2, by
    have hkeys : ∀ (nodes : List (String × NativeBufferEntry)) (result : EntryVector),
        (moveOut nodes result).2.map Prod.fst = nodes.map Prod.fst := by
      intro nodes
      induction nodes with
      | nil => intro result; rfl
      | cons node rest ih =>
        intro result
        obtain ⟨key, entry⟩ := node
        simp only [moveOut, List.map_cons, ih]
    rw [hkeys]
    exact m.unique,
   m.bucketsFor⟩

end UnorderedMap

/-- The class `NativeBufferStore`: the container `buffer_`.  The member
`mutex_` has no state between calls and is left out. -/
structure NativeBufferStore where
  buffer_ : UnorderedMap

namespace NativeBufferStore

/-- The default constructor: an empty buffer. -/
def create : NativeBufferStore := ⟨UnorderedMap.empty⟩

/-- The method `get(key)`: `none` is the null pointer, `some` the entry the
returned pointer refers to at the time of the call. -/
def get (self : NativeBufferStore) (key : String) : Option NativeBufferEntry :=
  match self.buffer_.find key with
  | none => none
  | some it => some it.2

/-- The method `set(key, entry)`: `buffer_[key] = std::move(entry)`. -/
def set (self : NativeBufferStore) (key : String) (entry : NativeBufferEntry) :
    NativeBufferStore :=
  ⟨(self.buffer_.index key).assign key entry⟩

/-- The method `erase(key)`: `buffer_.erase(key) > 0` and the store after. -/
def erase (self : NativeBufferStore) (key : String) : Bool × NativeBufferStore :=
  (decide ((self.buffer_.erase key).1 > 0), ⟨(self.buffer_.erase key).2⟩)

/-- The method `has(key)`: `buffer_.find(key) != buffer_.end()`. -/
def has (self : NativeBufferStore) (key : String) : Bool :=
  (self.buffer_.find key).isSome

/-- The method `size()`. -/
def size (self : NativeBufferStore) : Nat := self.buffer_.size

/-- The method `clear()`. -/
def clear (self : NativeBufferStore) : NativeBufferStore := ⟨self.buffer_.clear⟩

/-- The method `entries()`: the vector built by the loop over `buffer_`. -/
def entries (self : NativeBufferStore) : EntryVector :=
  UnorderedMap.copyOut self.buffer_.nodes []

/-- The method `drain()`: the vector built by the moving loop over `buffer_`,
and the store after `buffer_.clear()`. -/
def drain (self : NativeBufferStore) : EntryVector × NativeBufferStore :=
  ((UnorderedMap.moveOut self.buffer_.nodes []).1, ⟨self.buffer_.afterMoveOut.clear⟩)

/-- A sequence of `set(key, entry)` calls, one after the other. -/
def setAll (self : NativeBufferStore) (calls : List (String × NativeBufferEntry)) :
    NativeBufferStore :=
  calls.foldl (fun store call => store.set call.1 call.2) self

/-- The keys held, in iteration order. -/
def keys (self : NativeBufferStore) : List String := self.buffer_.nodes.map Prod.fst

end NativeBufferStore

/-- A call of one of the public methods. -/
inductive Call where
  | get (key : String)
  | set (key : String) (entry : NativeBufferEntry)
  | erase (key : String)
  | has (key : String)
  | size
  | clear
  | entries
  | drain
  deriving DecidableEq, Repr

/-- What a call returns. -/
inductive Outcome where
  | pointer (entry : Option NativeBufferEntry)
  | void
  | bool (b : Bool)
  | count (n : Nat)
  | vector (v : EntryVector)
  deriving DecidableEq, Repr

/-- One call on a store: what it returns and the store after it. -/
def step (self : NativeBufferStore) : Call → Outcome × NativeBufferStore
  | Call.get key => (Outcome.pointer (self.get key), self)
  | Call.set key entry => (Outcome.void, self.set key entry)
  | Call.erase key => (Outcome.bool (self.erase key).1, (self.erase key).2)
  | Call.has key => (Outcome.bool (self.has key), self)
  | Call.size => (Outcome.count self.size, self)
  | Call.clear => (Outcome.void, self.clear)
  | Call.entries => (Outcome.vector self.entries, self)
  | Call.drain => (Outcome.vector self.drain.1, self.drain.2)

/-- A sequence of calls on a store, one after the other: what each returns and
the store at the end. -/
def run (self : NativeBufferStore) : List Call → List Outcome × NativeBufferStore
  | [] => ([], self)
  | call :: calls =>
    ((step self call).1 :: (run (step self call).2 calls).1, (run (step self call).2 calls).2)

/-- The vector a call returned, when the call is a `drain()`. -/
def drainedVector : Call × Outcome → Option EntryVector
  | (Call.drain, Outcome.vector v) => some v
  | _ => none

/-- The batches of a run: the vectors returned by its `drain()` calls, in
order. -/
def batches (calls : List Call) (outcomes : List Outcome) : List EntryVector :=
  (calls.zip outcomes).filterMap drainedVector

/-- The call leaves a held key `key` in the buffer: it is not `erase(key)`,
`clear()` or `drain()`. -/
def Call.keeps (key : String) (call : Call) : Prop :=
  call ≠ Call.erase key ∧ call ≠ Call.clear ∧ call ≠ Call.drain

instance (key : String) (call : Call) : Decidable (call.keeps key) :=
  inferInstanceAs (Decidable (call ≠ Call.erase key ∧ call ≠ Call.clear ∧ call ≠ Call.drain))

/-- The read methods: `get`, `has`, `size` and `entries`, which take the
shared lock. -/
def Call.isRead : Call → Bool
  | Call.get _ => true
  | Call.has _ => true
  | Call.size => true
  | Call.entries => true
  | _ => false

/-- The key of a call, when the call is a `set(key, entry)`. -/
def setKey : Call → Option String
  | Call.set key _ => some key
  | _ => none

/-- The keys of the `set` calls of a sequence of calls, in order. -/
def setKeys (calls : List Call) : List String := calls.filterMap setKey

/-- The entry the writer of `test_concurrent_set_and_drain` sets for `key`. -/
def writerEntry (key value : String) : NativeBufferEntry :=
  { key := key, valueJSON := value, entryType := NativeEntryType.Set,
    replaceNullPatchesJSON := "" }

/-- The store of `test_drain` before its first drain. -/
def sampleStore : NativeBufferStore :=
  ((NativeBufferStore.create.set "d1" (writerEntry "d1" "\"v1\"")).set "d2"
    { key := "d2", valueJSON := "\"v2\"", entryType := NativeEntryType.Merge,
      replaceNullPatchesJSON := "" }).set "d3" (writerEntry "d3" "\"v3\"")

/-- One interleaving of three writer calls with two drainer calls. -/
def sampleInterleaving : List Call :=
  [Call.set "key_0" (writerEntry "key_0" "\"value_0\""), Call.drain,
   Call.set "key_1" (writerEntry "key_1" "\"value_1\""),
   Call.set "key_2" (writerEntry "key_2" "\"value_2\""), Call.drain]

/-- The caller contract `entry.key == key` holds for every node held. -/
def NativeBufferStore.KeyConsistent (self : NativeBufferStore) : Prop :=
  ∀ node ∈ self.buffer_.nodes, node.2.key = node.1

instance (self : NativeBufferStore) : Decidable self.KeyConsistent :=
  inferInstanceAs (Decidable (∀ node ∈ self.buffer_.nodes, node.2.key = node.1))

/-- An entry whose `key` field is not the key it is set under in the samples. -/
def mismatchedEntry : NativeBufferEntry :=
  { key := "other", valueJSON := "1", entryType := NativeEntryType.Merge,
    replaceNullPatchesJSON := "[]" }

/-- A sequence of calls in which every `set` has `entry.key == key`, ending
with two keys held. -/
def sampleContractCalls : List Call :=
  [Call.set "k1" (writerEntry "k1" "1"), Call.set "k2" (writerEntry "k2" "2"),
   Call.erase "k1", Call.get "k2", Call.set "k3" (writerEntry "k3" "3"),
   Call.set "k2" (writerEntry "k2" "4")]

end onyx

/-! ## The container -/

namespace onyx

theorem UnorderedMap.ext_nodes {a b : UnorderedMap} (h : a.nodes = b.nodes)
    (hb : a.bucketsFor = b.bucketsFor) : a = b := by
  cases a; cases b; cases h; cases hb; rfl

theorem UnorderedMap.moveOut_fst (nodes : List (String × NativeBufferEntry))
    (result : EntryVector) : (UnorderedMap.moveOut nodes result).1 = result ++ nodes := by
  induction nodes generalizing result with
  | nil => simp [UnorderedMap.moveOut]
  | cons node rest ih =>
    obtain ⟨key, entry⟩ := node
    simp [UnorderedMap.moveOut, ih]

theorem UnorderedMap.copyOut_eq (nodes : List (String × NativeBufferEntry))
    (result : EntryVector) : UnorderedMap.copyOut nodes result = result ++ nodes := by
  induction nodes generalizing result with
  | nil => simp [UnorderedMap.copyOut]
  | cons node rest ih =>
    obtain ⟨key, entry⟩ := node
    simp [UnorderedMap.copyOut, ih]

/-- In a list of nodes with distinct keys, `find` gives the one node of the key. -/
theorem find_eq_some_iff (nodes : List (String × NativeBufferEntry))
    (hu : (nodes.map Prod.fst).Nodup) (key : String) (node : String × NativeBufferEntry) :
    nodes.find? (fun n => n.1 == key) = some node ↔ node ∈ nodes ∧ node.1 = key := by
  induction nodes with
  | nil => simp
  | cons head rest ih =>
    simp only [List.map_cons, List.nodup_cons] at hu
    by_cases hk : head.1 = key
    · have hb : (head.1 == key) = true := by simp [hk]
      simp only [List.find?_cons, hb, Option.some.injEq, List.mem_cons]
      constructor
      · intro h; exact ⟨Or.inl h.symm, h ▸ hk⟩
      · rintro ⟨h | h, hn⟩
        · exact h.symm
        · exact absurd (List.mem_map.mpr ⟨node, h, hn.trans hk.symm⟩) hu.1
    · have hb : (head.1 == key) = false := by simp [hk]
      simp only [List.find?_cons, hb, List.mem_cons, ih hu.2]
      constructor
      · rintro ⟨h, hn⟩; exact ⟨Or.inr h, hn⟩
      · rintro ⟨h | h, hn⟩
        · exact absurd (h ▸ hn) hk
        · exact ⟨h, hn⟩

theorem find_eq_none_iff (nodes : List (String × NativeBufferEntry)) (key : String) :
    nodes.find? (fun n => n.1 == key) = none ↔ key ∉ nodes.map Prod.fst := by
  simp only [List.find?_eq_none, List.mem_map, not_exists, not_and]
  constructor
  · intro h node hn hk; exact h node hn (by simp [hk])
  · intro h node hn hk; exact h node hn (by simpa using hk)

theorem UnorderedMap.index_nodes (m : UnorderedMap) (key : String) :
    (m.index key).nodes =
      if key ∈ m.nodes.map Prod.fst then m.nodes
      else (key, NativeBufferEntry.valueInit) :: m.nodes := by
  unfold UnorderedMap.index
  split
  · next node h =>
    have hin : key ∈ m.nodes.map Prod.fst := by
      by_contra hc
      rw [UnorderedMap.find, (find_eq_none_iff m.nodes key).mpr hc] at h
      cases h
    simp [hin]
  · next h =>
    have hout : key ∉ m.nodes.map Prod.fst := (find_eq_none_iff m.nodes key).mp h
    simp only [hout, if_false]

/-- Assigning to a key that no node has changes nothing. -/
theorem map_assign_of_not_mem (nodes : List (String × NativeBufferEntry)) (key : String)
    (entry : NativeBufferEntry) (h : key ∉ nodes.map Prod.fst) :
    nodes.map (fun node => if node.1 == key then (node.1, entry) else node) = nodes := by
  induction nodes with
  | nil => rfl
  | cons head rest ih =>
    simp only [List.map_cons, List.mem_cons, not_or] at h
    have hb : (head.1 == key) = false := by simpa using fun e => h.1 e.symm
    simp only [List.map_cons, hb, ih h.2]
    rfl

end onyx

/-! ## The store -/

namespace onyx

namespace NativeBufferStore

theorem store_ext_nodes {a b : NativeBufferStore} (h : a.buffer_.nodes = b.buffer_.nodes)
    (hb : a.buffer_.bucketsFor = b.buffer_.bucketsFor) : a = b := by
  cases a; cases b
  simp only [NativeBufferStore.mk.injEq]
  exact UnorderedMap.ext_nodes h hb

theorem keys_nodup (self : NativeBufferStore) : self.keys.Nodup := self.buffer_.unique

theorem entries_eq (self : NativeBufferStore) : self.entries = self.buffer_.nodes := by
  simp [entries, UnorderedMap.copyOut_eq]

theorem drain_fst (self : NativeBufferStore) : self.drain.1 = self.buffer_.nodes := by
  simp [drain, UnorderedMap.moveOut_fst]

theorem drain_snd_nodes (self : NativeBufferStore) : self.drain.2.buffer_.nodes = [] := rfl

theorem drain_snd_keys (self : NativeBufferStore) : self.drain.2.keys = [] := rfl

theorem get_eq_some_iff (self : NativeBufferStore) (key : String) (entry : NativeBufferEntry) :
    self.get key = some entry ↔ (key, entry) ∈ self.buffer_.nodes := by
  unfold get UnorderedMap.find
  constructor
  · intro h
    split at h
    · cases h
    · next it hit =>
      have hm := (find_eq_some_iff _ self.buffer_.unique key it).mp hit
      obtain ⟨k, e⟩ := it
      simp only [Option.some.injEq] at h
      obtain ⟨hmem, hk⟩ := hm
      simp only at hk
      subst hk; subst h
      exact hmem
  · intro h
    rw [(find_eq_some_iff _ self.buffer_.unique key (key, entry)).mpr ⟨h, rfl⟩]

theorem get_eq_none_iff (self : NativeBufferStore) (key : String) :
    self.get key = none ↔ key ∉ self.keys := by
  unfold get UnorderedMap.find keys
  rw [← find_eq_none_iff]
  split <;> simp [*]

theorem has_iff (self : NativeBufferStore) (key : String) :
    self.has key = true ↔ key ∈ self.keys := by
  unfold has UnorderedMap.find keys
  rw [← not_iff_not, ← find_eq_none_iff]
  cases List.find? (fun n => n.1 == key) self.buffer_.nodes <;> simp

theorem has_eq_get_isSome (self : NativeBufferStore) (key : String) :
    self.has key = (self.get key).isSome := by
  unfold has get
  cases self.buffer_.find key <;> rfl

theorem set_nodes (self : NativeBufferStore) (key : String) (entry : NativeBufferEntry) :
    (self.set key entry).buffer_.nodes =
      if key ∈ self.keys then
        self.buffer_.nodes.map (fun node => if node.1 == key then (node.1, entry) else node)
      else (key, entry) :: self.buffer_.nodes := by
  unfold set keys
  simp only [UnorderedMap.assign, UnorderedMap.index_nodes]
  by_cases h : key ∈ self.buffer_.nodes.map Prod.fst
  · simp only [h, if_true]
  · simp only [h, if_false, List.map_cons, beq_self_eq_true, if_true,
      map_assign_of_not_mem _ _ _ h]

theorem set_keys (self : NativeBufferStore) (key : String) (entry : NativeBufferEntry) :
    (self.set key entry).keys = if key ∈ self.keys then self.keys else key :: self.keys := by
  have hk : (self.set key entry).keys = (self.set key entry).buffer_.nodes.map Prod.fst := rfl
  rw [hk, set_nodes]
  by_cases h : key ∈ self.keys
  · rw [if_pos h, if_pos h]
    simp only [keys, List.map_map]
    apply List.map_congr_left
    intro node _
    show (if node.1 == key then (node.1, entry) else node).1 = node.1
    split <;> rfl
  · rw [if_neg h, if_neg h]
    rfl

theorem mem_set_nodes (self : NativeBufferStore) (key : String) (entry : NativeBufferEntry)
    (k : String) (e : NativeBufferEntry) :
    (k, e) ∈ (self.set key entry).buffer_.nodes ↔
      (k = key ∧ e = entry) ∨ (k ≠ key ∧ (k, e) ∈ self.buffer_.nodes) := by
  rw [set_nodes]
  by_cases h : key ∈ self.keys
  · simp only [h, if_true, List.mem_map]
    constructor
    · rintro ⟨node, hn, heq⟩
      by_cases hc : node.1 = key
      · have hb : (node.1 == key) = true := by simp [hc]
        simp only [hb, if_true, Prod.mk.injEq] at heq
        exact Or.inl ⟨heq.1 ▸ hc, heq.2.symm⟩
      · have hb : (node.1 == key) = false := by simp [hc]
        simp only [hb] at heq
        subst heq
        exact Or.inr ⟨hc, hn⟩
    · rintro (⟨hk, he⟩ | ⟨hk, hn⟩)
      · obtain ⟨node, hn, hnk⟩ := List.mem_map.mp h
        refine ⟨node, hn, ?_⟩
        have hb : (node.1 == key) = true := by simp [hnk]
        simp only [hb, if_true, Prod.mk.injEq]
        exact ⟨hnk.trans hk.symm, he.symm⟩
      · refine ⟨(k, e), hn, ?_⟩
        have hb : (k == key) = false := by simp [hk]
        simp only [hb]
        rfl
  · simp only [h, if_false, List.mem_cons, Prod.mk.injEq]
    constructor
    · rintro (⟨hk, he⟩ | hn)
      · exact Or.inl ⟨hk, he⟩
      · refine Or.inr ⟨?_, hn⟩
        intro hk
        exact h (List.mem_map.mpr ⟨(k, e), hn, hk⟩)
    · rintro (⟨hk, he⟩ | ⟨_, hn⟩)
      · exact Or.inl ⟨hk, he⟩
      · exact Or.inr hn

theorem get_set (self : NativeBufferStore) (key : String) (entry : NativeBufferEntry)
    (k : String) :
    (self.set key entry).get k = if k = key then some entry else self.get k := by
  by_cases hk : k = key
  · simp only [hk, if_true]
    rw [get_eq_some_iff, mem_set_nodes]
    exact Or.inl ⟨rfl, rfl⟩
  · simp only [hk, if_false]
    cases hg : self.get k with
    | none =>
      rw [get_eq_none_iff] at hg ⊢
      rw [set_keys]
      split
      · exact hg
      · simp only [List.mem_cons, not_or]; exact ⟨hk, hg⟩
    | some e =>
      rw [get_eq_some_iff] at hg ⊢
      rw [mem_set_nodes]
      exact Or.inr ⟨hk, hg⟩

theorem has_set (self : NativeBufferStore) (key : String) (entry : NativeBufferEntry)
    (k : String) :
    (self.set key entry).has k = (decide (k = key) || self.has k) := by
  rw [has_eq_get_isSome, get_set, has_eq_get_isSome]
  by_cases hk : k = key <;> simp [hk]

theorem size_set (self : NativeBufferStore) (key : String) (entry : NativeBufferEntry) :
    (self.set key entry).size = if self.has key then self.size else self.size + 1 := by
  have hs : ∀ s : NativeBufferStore, s.size = s.keys.length := by
    intro s; simp [size, UnorderedMap.size, keys]
  rw [hs, hs, set_keys]
  by_cases h : key ∈ self.keys
  · simp [h, (has_iff self key).mpr h]
  · have hf : self.has key = false := by
      rw [← Bool.not_eq_true, has_iff]; exact h
    simp [h, hf]

end NativeBufferStore

end onyx

/-! ## Sequences of `set` calls and drain completeness -/

namespace onyx

theorem NativeBufferStore.mem_setAll_nodes (calls : List (String × NativeBufferEntry)) :
    ∀ (self : NativeBufferStore) (k : String) (e : NativeBufferEntry),
      (k, e) ∈ (self.setAll calls).buffer_.nodes ↔
        (∃ before later, calls = before ++ (k, e) :: later ∧ k ∉ later.map Prod.fst) ∨
        (k ∉ calls.map Prod.fst ∧ (k, e) ∈ self.buffer_.nodes) := by
  induction calls with
  | nil => intro self k e; simp [NativeBufferStore.setAll]
  | cons call rest ih =>
    intro self k e
    have hstep : self.setAll (call :: rest) = (self.set call.1 call.2).setAll rest := rfl
    rw [hstep, ih, NativeBufferStore.mem_set_nodes]
    constructor
    · rintro (⟨before, later, hsplit, hlast⟩ | ⟨hnot, (⟨hk, he⟩ | ⟨hk, hn⟩)⟩)
      · exact Or.inl ⟨call :: before, later, by rw [hsplit]; rfl, hlast⟩
      · refine Or.inl ⟨[], rest, ?_, hnot⟩
        subst hk he
        rfl
      · refine Or.inr ⟨?_, hn⟩
        simp only [List.map_cons, List.mem_cons, not_or]
        exact ⟨hk, hnot⟩
    · rintro (⟨before, later, hsplit, hlast⟩ | ⟨hnot, hn⟩)
      · cases before with
        | nil =>
          simp only [List.nil_append, List.cons.injEq] at hsplit
          obtain ⟨hc, hr⟩ := hsplit
          subst hc hr
          exact Or.inr ⟨hlast, Or.inl ⟨rfl, rfl⟩⟩
        | cons b before =>
          simp only [List.cons_append, List.cons.injEq] at hsplit
          exact Or.inl ⟨before, later, hsplit.2, hlast⟩
      · simp only [List.map_cons, List.mem_cons, not_or] at hnot
        exact Or.inr ⟨hnot.2, Or.inr ⟨hnot.1, hn⟩⟩

theorem NativeBufferStore.mem_setAll_keys (calls : List (String × NativeBufferEntry)) :
    ∀ (self : NativeBufferStore) (k : String),
      k ∈ (self.setAll calls).keys ↔ k ∈ calls.map Prod.fst ∨ k ∈ self.keys := by
  induction calls with
  | nil => intro self k; simp [NativeBufferStore.setAll]
  | cons call rest ih =>
    intro self k
    have hstep : self.setAll (call :: rest) = (self.set call.1 call.2).setAll rest := rfl
    rw [hstep, ih, ← NativeBufferStore.has_iff (self.set call.1 call.2),
      NativeBufferStore.has_set, Bool.or_eq_true, NativeBufferStore.has_iff]
    simp only [List.map_cons, List.mem_cons, decide_eq_true_eq]
    tauto

/-- C1 (drain completeness).  After any finite sequence `calls` of `set` calls
on an empty buffer, one `drain` returns a vector whose keys are pairwise
distinct (each key once), whose keys are exactly the keys that were set, in
which a pair `(key, entry)` occurs exactly when `set(key, entry)` is the last
call of the sequence for `key`, and after which `size()` is 0. -/
theorem drain_completeness (calls : List (String × NativeBufferEntry)) :
    (((NativeBufferStore.create.setAll calls).drain.1).map Prod.fst).Nodup ∧
    (∀ key, key ∈ ((NativeBufferStore.create.setAll calls).drain.1).map Prod.fst ↔
      key ∈ calls.map Prod.fst) ∧
    (∀ key entry, (key, entry) ∈ (NativeBufferStore.create.setAll calls).drain.1 ↔
      ∃ before later, calls = before ++ (key, entry) :: later ∧ key ∉ later.map Prod.fst) ∧
    (NativeBufferStore.create.setAll calls).drain.2.size = 0 := by
  refine ⟨?_, ?_, ?_, rfl⟩
  · rw [NativeBufferStore.drain_fst]
    exact (NativeBufferStore.create.setAll calls).buffer_.unique
  · intro key
    rw [NativeBufferStore.drain_fst]
    have h := NativeBufferStore.mem_setAll_keys calls NativeBufferStore.create key
    simp only [NativeBufferStore.keys] at h
    rw [h]
    simp [NativeBufferStore.create, UnorderedMap.empty]
  · intro key entry
    rw [NativeBufferStore.drain_fst, NativeBufferStore.mem_setAll_nodes]
    simp [NativeBufferStore.create, UnorderedMap.empty]

end onyx

/-! ## A writer interleaved with a drainer -/

namespace onyx

theorem run_cons (self : NativeBufferStore) (call : Call) (calls : List Call) :
    run self (call :: calls) =
      ((step self call).1 :: (run (step self call).2 calls).1,
        (run (step self call).2 calls).2) := rfl

theorem NativeBufferStore.keys_create : NativeBufferStore.create.keys = [] := rfl

/-- Along a run of `set` and `drain` calls whose new keys are distinct from
each other and from the keys held at the start, the keys of the batches
together with the keys held at the end are the keys held at the start together
with the keys set. -/
theorem batches_keys_perm (calls : List Call) :
    ∀ (self : NativeBufferStore),
      (∀ c ∈ calls, c = Call.drain ∨ ∃ k e, c = Call.set k e) →
      (self.keys ++ setKeys calls).Nodup →
      List.Perm
        ((batches calls (run self calls).1).flatten.map Prod.fst ++ (run self calls).2.keys)
        (self.keys ++ setKeys calls) := by
  induction calls with
  | nil =>
    intro self _ _
    simp [batches, setKeys, run]
  | cons call rest ih =>
    intro self honly hnodup
    have hrest : ∀ c ∈ rest, c = Call.drain ∨ ∃ k e, c = Call.set k e :=
      fun c hc => honly c (List.mem_cons_of_mem _ hc)
    rcases honly call (List.mem_cons_self _ _) with hcall | ⟨k, e, hcall⟩
    · subst hcall
      have hkeys : setKeys (Call.drain :: rest) = setKeys rest := rfl
      rw [hkeys] at hnodup ⊢
      have hnd : (self.drain.2.keys ++ setKeys rest).Nodup := by
        rw [NativeBufferStore.drain_snd_keys, List.nil_append]
        exact (List.nodup_append.mp hnodup).2.1
      have h := ih self.drain.2 hrest hnd
      rw [NativeBufferStore.drain_snd_keys, List.nil_append] at h
      have hb : batches (Call.drain :: rest) (run self (Call.drain :: rest)).1 =
          self.buffer_.nodes :: batches rest (run self.drain.2 rest).1 := by
        simp [batches, run_cons, step, drainedVector, NativeBufferStore.drain_fst]
      have hs : (run self (Call.drain :: rest)).2 = (run self.drain.2 rest).2 := by
        simp [run_cons, step]
      rw [hb, hs, List.flatten_cons, List.map_append, List.append_assoc]
      exact List.Perm.append_left _ h
    · subst hcall
      have hkeys : setKeys (Call.set k e :: rest) = k :: setKeys rest := rfl
      rw [hkeys] at hnodup ⊢
      have hk : k ∉ self.keys := by
        intro hmem
        exact (List.nodup_append.mp hnodup).2.2 hmem (List.mem_cons_self _ _)
      have hset : (self.set k e).keys = k :: self.keys := by
        rw [NativeBufferStore.set_keys, if_neg hk]
      have hmid : List.Perm (self.keys ++ k :: setKeys rest)
          ((self.set k e).keys ++ setKeys rest) := by
        rw [hset]
        exact List.perm_middle
      have h := ih (self.set k e) hrest (hmid.nodup_iff.mp hnodup)
      have hb : batches (Call.set k e :: rest) (run self (Call.set k e :: rest)).1 =
          batches rest (run (self.set k e) rest).1 := by
        simp [batches, run_cons, step, drainedVector]
      have hs : (run self (Call.set k e :: rest)).2 = (run (self.set k e) rest).2 := by
        simp [run_cons, step]
      rw [hb, hs]
      exact h.trans hmid.symm

end onyx

namespace onyx

/-- C3 (no loss and no duplication across drains).  For every interleaving
`calls` of `N` `set` calls on pairwise distinct keys with `drain` calls, run
as atomic steps on an empty buffer and ending with the buffer empty, the sizes
of the drained batches add up to `N`, no key occurs twice in the batches taken
together, and every key that was set occurs in a batch. -/
theorem no_loss_no_duplication (calls : List Call) (N : Nat)
    (honly : ∀ c ∈ calls, c = Call.drain ∨ ∃ k e, c = Call.set k e)
    (hN : (setKeys calls).length = N)
    (hdistinct : (setKeys calls).Nodup)
    (hdone : (run NativeBufferStore.create calls).2.size = 0) :
    ((batches calls (run NativeBufferStore.create calls).1).map List.length).sum = N ∧
    ((batches calls (run NativeBufferStore.create calls).1).flatten.map Prod.fst).Nodup ∧
    (∀ k ∈ setKeys calls,
      k ∈ (batches calls (run NativeBufferStore.create calls).1).flatten.map Prod.fst) := by
  have hperm := batches_keys_perm calls NativeBufferStore.create honly
    (by rw [NativeBufferStore.keys_create, List.nil_append]; exact hdistinct)
  have hempty : (run NativeBufferStore.create calls).2.keys = [] := by
    have hlen : (run NativeBufferStore.create calls).2.keys.length = 0 := by
      simpa [NativeBufferStore.size, UnorderedMap.size, NativeBufferStore.keys] using hdone
    exact List.length_eq_zero.mp hlen
  rw [hempty, List.append_nil, NativeBufferStore.keys_create, List.nil_append] at hperm
  refine ⟨?_, hperm.nodup_iff.mpr hdistinct, fun k hk => hperm.mem_iff.mpr hk⟩
  rw [← List.length_flatten, ← hN, ← hperm.length_eq, List.length_map]

theorem no_loss_no_duplication_witness :
    (setKeys sampleInterleaving).length = 3 ∧
    (setKeys sampleInterleaving).Nodup ∧
    (run NativeBufferStore.create sampleInterleaving).2.size = 0 ∧
    ((batches sampleInterleaving
        (run NativeBufferStore.create sampleInterleaving).1).map List.length).sum = 3 ∧
    ((batches sampleInterleaving
        (run NativeBufferStore.create sampleInterleaving).1).flatten.map Prod.fst).Nodup ∧
    (∀ k ∈ setKeys sampleInterleaving,
      k ∈ (batches sampleInterleaving
        (run NativeBufferStore.create sampleInterleaving).1).flatten.map Prod.fst) :=
  ⟨by decide, by decide, by decide,
    no_loss_no_duplication sampleInterleaving 3
      (by
        intro c hc
        simp only [sampleInterleaving, List.mem_cons, List.not_mem_nil, or_false] at hc
        rcases hc with h | h | h | h | h
        · exact Or.inr ⟨_, _, h⟩
        · exact Or.inl h
        · exact Or.inr ⟨_, _, h⟩
        · exact Or.inr ⟨_, _, h⟩
        · exact Or.inl h)
      (by decide) (by decide) (by decide)⟩

end onyx

/-! ## Overwriting, and which keys are held -/

namespace onyx

/-- C4 (no loss under overwrite).  On every buffer, after `set(k, e1)` and
then `set(k, e2)` the call `get(k)` returns `e2`, the key `k` is held once,
and the second `set` leaves `size()` as it was; on an empty buffer, after
`set(k, e)` the call `get(k)` returns `e`, `has(k)` is true and `size()` is 1. -/
theorem no_loss_under_overwrite (self : NativeBufferStore) (k : String)
    (e1 e2 : NativeBufferEntry) :
    ((self.set k e1).set k e2).get k = some e2 ∧
    ((self.set k e1).set k e2).keys.count k = 1 ∧
    ((self.set k e1).set k e2).size = (self.set k e1).size ∧
    ((NativeBufferStore.create.set k e1).get k = some e1 ∧
      (NativeBufferStore.create.set k e1).has k = true ∧
      (NativeBufferStore.create.set k e1).size = 1) := by
  have hhas : ∀ (s : NativeBufferStore) (e : NativeBufferEntry), (s.set k e).has k = true := by
    intro s e; simp [NativeBufferStore.has_set]
  refine ⟨?_, ?_, ?_, ?_, hhas _ _, ?_⟩
  · simp [NativeBufferStore.get_set]
  · exact List.count_eq_one_of_mem (NativeBufferStore.keys_nodup _)
      ((NativeBufferStore.has_iff _ k).mp (hhas _ _))
  · rw [NativeBufferStore.size_set, hhas, if_pos rfl]
  · simp [NativeBufferStore.get_set]
  · rw [NativeBufferStore.size_set]
    rfl

theorem NativeBufferStore.has_erase (self : NativeBufferStore) (key k : String) :
    (self.erase key).2.has k = true ↔ self.has k = true ∧ k ≠ key := by
  rw [NativeBufferStore.has_iff, NativeBufferStore.has_iff]
  simp only [NativeBufferStore.keys, NativeBufferStore.erase, UnorderedMap.erase, List.mem_map,
    List.mem_filter, Bool.not_eq_true', beq_eq_false_iff_ne, ne_eq]
  constructor
  · rintro ⟨node, ⟨hn, hne⟩, hk⟩
    exact ⟨⟨node, hn, hk⟩, hk ▸ hne⟩
  · rintro ⟨⟨node, hn, hk⟩, hne⟩
    exact ⟨node, ⟨hn, hk ▸ hne⟩, hk⟩

theorem NativeBufferStore.has_create (k : String) : NativeBufferStore.create.has k = false := rfl

/-- After one call, `has(k)` holds exactly when the call is a `set(k, _)`, or
`k` was held before and the call keeps it. -/
theorem has_step (self : NativeBufferStore) (call : Call) (k : String) :
    (step self call).2.has k = true ↔
      (∃ e, call = Call.set k e) ∨ (self.has k = true ∧ call.keeps k) := by
  cases call with
  | get key => simp [step, Call.keeps]
  | set key entry =>
    simp only [step, NativeBufferStore.has_set, Bool.or_eq_true, decide_eq_true_eq, Call.keeps,
      Call.set.injEq, ne_eq, not_false_eq_true, and_self, and_true, reduceCtorEq]
    constructor
    · rintro (h | h)
      · exact Or.inl ⟨entry, h.symm, rfl⟩
      · exact Or.inr h
    · rintro (⟨e, h, _⟩ | h)
      · exact Or.inl h.symm
      · exact Or.inr h
  | erase key =>
    simp only [step, NativeBufferStore.has_erase, Call.keeps, reduceCtorEq, exists_false,
      false_or, ne_eq, Call.erase.injEq, not_false_eq_true, and_true]
    constructor
    · rintro ⟨h, hne⟩; exact ⟨h, fun e => hne e.symm⟩
    · rintro ⟨h, hne⟩; exact ⟨h, fun e => hne e.symm⟩
  | has key => simp [step, Call.keeps]
  | size => simp [step, Call.keeps]
  | clear =>
    have hgone : self.clear.has k = false := rfl
    simp [step, Call.keeps, hgone]
  | entries => simp [step, Call.keeps]
  | drain =>
    have hgone : self.drain.2.has k = false := rfl
    simp [step, Call.keeps, hgone]

theorem has_run (calls : List Call) :
    ∀ (self : NativeBufferStore) (k : String),
      (run self calls).2.has k = true ↔
        (∃ before entry later, calls = before ++ Call.set k entry :: later ∧
          ∀ c ∈ later, c.keeps k) ∨
        (self.has k = true ∧ ∀ c ∈ calls, c.keeps k) := by
  induction calls with
  | nil => intro self k; simp [run]
  | cons call rest ih =>
    intro self k
    have hs : (run self (call :: rest)).2 = (run (step self call).2 rest).2 := rfl
    rw [hs, ih, has_step]
    constructor
    · rintro (⟨before, entry, later, hsplit, hkeep⟩ | ⟨(⟨e, hc⟩ | ⟨hh, hk⟩), hkeep⟩)
      · exact Or.inl ⟨call :: before, entry, later, by rw [hsplit]; rfl, hkeep⟩
      · exact Or.inl ⟨[], e, rest, by rw [hc]; rfl, hkeep⟩
      · refine Or.inr ⟨hh, ?_⟩
        intro c hc
        rcases List.mem_cons.mp hc with h | h
        · exact h ▸ hk
        · exact hkeep c h
    · rintro (⟨before, entry, later, hsplit, hkeep⟩ | ⟨hh, hkeep⟩)
      · cases before with
        | nil =>
          simp only [List.nil_append, List.cons.injEq] at hsplit
          obtain ⟨hc, hr⟩ := hsplit
          subst hr
          exact Or.inr ⟨Or.inl ⟨entry, hc⟩, hkeep⟩
        | cons b before =>
          simp only [List.cons_append, List.cons.injEq] at hsplit
          exact Or.inl ⟨before, entry, later, hsplit.2, hkeep⟩
      · exact Or.inr ⟨Or.inr ⟨hh, hkeep call (List.mem_cons_self _ _)⟩,
          fun c hc => hkeep c (List.mem_cons_of_mem _ hc)⟩

/-- C5 (erase/has consistency).  After any finite sequence `calls` of calls
on a freshly created buffer, `has(k)` is true exactly when the sequence has a
`set(k, _)` with no `erase(k)`, `clear()` or `drain()` later in the sequence. -/
theorem erase_has_consistency (calls : List Call) (k : String) :
    (run NativeBufferStore.create calls).2.has k = true ↔
      ∃ before entry later, calls = before ++ Call.set k entry :: later ∧
        ∀ c ∈ later, c ≠ Call.erase k ∧ c ≠ Call.clear ∧ c ≠ Call.drain := by
  rw [has_run, NativeBufferStore.has_create]
  simp [Call.keeps]

end onyx

/-! ## Drains -/

namespace onyx

theorem step_nodes_nil (self : NativeBufferStore) (call : Call)
    (hempty : self.buffer_.nodes = []) (hcall : setKey call = none) :
    (step self call).2.buffer_.nodes = [] := by
  cases call with
  | set key entry => simp [setKey] at hcall
  | erase key => simp [step, NativeBufferStore.erase, UnorderedMap.erase, hempty]
  | get key => exact hempty
  | has key => exact hempty
  | size => exact hempty
  | entries => exact hempty
  | clear => rfl
  | drain => rfl

theorem run_nodes_nil (calls : List Call) :
    ∀ (self : NativeBufferStore), self.buffer_.nodes = [] →
      (∀ c ∈ calls, setKey c = none) → (run self calls).2.buffer_.nodes = [] := by
  induction calls with
  | nil => intro self hempty _; exact hempty
  | cons call rest ih =>
    intro self hempty hcalls
    exact ih _ (step_nodes_nil self call hempty (hcalls call (List.mem_cons_self _ _)))
      (fun c hc => hcalls c (List.mem_cons_of_mem _ hc))

/-- C6 (drain exclusivity).  On every buffer, a `drain` right after a `drain`
returns an empty vector, and so does a `drain` that follows a `drain` with
calls `between` of which none is a `set`. -/
theorem drain_exclusivity (self : NativeBufferStore) (between : List Call)
    (hnoset : ∀ c ∈ between, setKey c = none) :
    self.drain.2.drain.1 = [] ∧ (run self.drain.2 between).2.drain.1 = [] := by
  refine ⟨rfl, ?_⟩
  rw [NativeBufferStore.drain_fst]
  exact run_nodes_nil between _ rfl hnoset

theorem drain_exclusivity_witness :
    (∀ c ∈ [Call.size, Call.erase "d1", Call.entries], setKey c = none) ∧
    sampleStore.drain.1.length = 3 ∧
    sampleStore.drain.2.drain.1 = [] ∧
    (run sampleStore.drain.2 [Call.size, Call.erase "d1", Call.entries]).2.drain.1 = [] :=
  ⟨by decide, by decide,
    drain_exclusivity sampleStore [Call.size, Call.erase "d1", Call.entries] (by decide)⟩

/-- C7 (independence across drains).  On every buffer, in the sequence
`drain(); set(k, e); drain()` the second drain returns the one pair `(k, e)`
and leaves `size()` 0, and the first drain returns what it returns when run
alone, without the later `set`. -/
theorem independence_across_drains (self : NativeBufferStore) (k : String)
    (e : NativeBufferEntry) :
    (run self [Call.drain, Call.set k e, Call.drain]).1 =
      [Outcome.vector self.drain.1, Outcome.void, Outcome.vector [(k, e)]] ∧
    (run self [Call.drain, Call.set k e, Call.drain]).2.size = 0 ∧
    (run self [Call.drain, Call.set k e, Call.drain]).1.head? = (run self [Call.drain]).1.head? ∧
    (self.drain.2.set k e).drain.1 = [(k, e)] := by
  have hset : (self.drain.2.set k e).drain.1 = [(k, e)] := by
    rw [NativeBufferStore.drain_fst, NativeBufferStore.set_nodes,
      NativeBufferStore.drain_snd_keys, if_neg (List.not_mem_nil k)]
    rfl
  refine ⟨?_, rfl, rfl, hset⟩
  simp only [run, step, hset]

end onyx

/-! ## Reads -/

namespace onyx

/-- C9 (snapshot non-mutation).  On every buffer, `entries()` leaves `size()`
and the contents as they were; each read call (`entries`, `get`, `has`,
`size`) leaves the store exactly as it was, and every sequence of later calls
returns the same results and ends in the same store as without the read. -/
theorem snapshot_non_mutation (self : NativeBufferStore) (call : Call) (later : List Call)
    (hread : call.isRead = true) :
    (step self Call.entries).2.size = self.size ∧
    (step self Call.entries).2.entries = self.entries ∧
    (step self call).2 = self ∧
    (run self (call :: later)).1.tail = (run self later).1 ∧
    (run self (call :: later)).2 = (run self later).2 := by
  have hsame : (step self call).2 = self := by
    cases call <;> first | rfl | simp [Call.isRead] at hread
  refine ⟨rfl, rfl, hsame, ?_, ?_⟩
  · rw [run_cons, hsame]; rfl
  · rw [run_cons, hsame]

theorem snapshot_non_mutation_witness :
    (Call.get "d2").isRead = true ∧
    (step sampleStore Call.entries).2.size = sampleStore.size ∧
    (step sampleStore Call.entries).2.entries = sampleStore.entries ∧
    (step sampleStore (Call.get "d2")).2 = sampleStore ∧
    (run sampleStore (Call.get "d2" :: [Call.erase "d2", Call.size, Call.drain])).1.tail =
      (run sampleStore [Call.erase "d2", Call.size, Call.drain]).1 ∧
    (run sampleStore (Call.get "d2" :: [Call.erase "d2", Call.size, Call.drain])).2 =
      (run sampleStore [Call.erase "d2", Call.size, Call.drain]).2 :=
  ⟨by decide,
    snapshot_non_mutation sampleStore (Call.get "d2") [Call.erase "d2", Call.size, Call.drain]
      (by decide)⟩

/-- C10 (entries is a faithful snapshot).  On every buffer, the vector that
`entries()` returns has length `size()`, has pairwise distinct keys, and holds
a pair `(k, e)` exactly when `get(k)` returns `e`; after `set("a", ea)` and
`set("b", eb)` on an empty buffer it is the two pairs in some order, and
`size()` is 2. -/
theorem entries_faithful_snapshot (self : NativeBufferStore) :
    self.entries.length = self.size ∧
    (self.entries.map Prod.fst).Nodup ∧
    (∀ k e, (k, e) ∈ self.entries ↔ self.get k = some e) ∧
    (∀ ea eb : NativeBufferEntry,
      List.Perm ((NativeBufferStore.create.set "a" ea).set "b" eb).entries
        [("a", ea), ("b", eb)] ∧
      ((NativeBufferStore.create.set "a" ea).set "b" eb).size = 2) := by
  refine ⟨?_, ?_, ?_, ?_⟩
  · rw [NativeBufferStore.entries_eq]; rfl
  · rw [NativeBufferStore.entries_eq]; exact self.buffer_.unique
  · intro k e
    rw [NativeBufferStore.entries_eq, NativeBufferStore.get_eq_some_iff]
  · intro ea eb
    have ha : (NativeBufferStore.create.set "a" ea).buffer_.nodes = [("a", ea)] := by
      rw [NativeBufferStore.set_nodes, NativeBufferStore.keys_create,
        if_neg (List.not_mem_nil _)]
      rfl
    have hka : (NativeBufferStore.create.set "a" ea).keys = ["a"] := by
      simp [NativeBufferStore.keys, ha]
    have hb : ((NativeBufferStore.create.set "a" ea).set "b" eb).buffer_.nodes =
        [("b", eb), ("a", ea)] := by
      rw [NativeBufferStore.set_nodes, hka, if_neg (by decide), ha]
    constructor
    · rw [NativeBufferStore.entries_eq, hb]
      exact List.Perm.swap _ _ _
    · simp [NativeBufferStore.size, UnorderedMap.size, hb]

end onyx

/-! ## Erase and clear -/

namespace onyx

theorem NativeBufferStore.erase_count (self : NativeBufferStore) (key : String) :
    (self.buffer_.erase key).1 = if key ∈ self.keys then 1 else 0 := by
  have h : (self.buffer_.erase key).1 = self.keys.count key := by
    simp only [UnorderedMap.erase, NativeBufferStore.keys, List.count_eq_countP, List.countP_map]
    rfl
  rw [h]
  split
  · next hin => exact List.count_eq_one_of_mem self.keys_nodup hin
  · next hout => exact List.count_eq_zero_of_not_mem hout

theorem NativeBufferStore.erase_fst (self : NativeBufferStore) (key : String) :
    (self.erase key).1 = self.has key := by
  unfold NativeBufferStore.erase
  simp only [NativeBufferStore.erase_count]
  by_cases h : key ∈ self.keys
  · simp [h, (NativeBufferStore.has_iff self key).mpr h]
  · have hf : self.has key = false := by
      rw [← Bool.not_eq_true, NativeBufferStore.has_iff]; exact h
    simp [h, hf]

theorem length_filter_add_countP (nodes : List (String × NativeBufferEntry)) (key : String) :
    (nodes.filter (fun node => !(node.1 == key))).length +
      nodes.countP (fun node => node.1 == key) = nodes.length := by
  induction nodes with
  | nil => rfl
  | cons head rest ih =>
    by_cases h : head.1 = key
    · have hb : (head.1 == key) = true := by simp [h]
      simp only [List.filter_cons, List.countP_cons, hb, Bool.not_true, if_true, List.length_cons]
      simp only [Bool.false_eq_true, if_false]
      omega
    · have hb : (head.1 == key) = false := by simp [h]
      simp only [List.filter_cons, List.countP_cons, hb, Bool.not_false, if_true,
        List.length_cons]
      simp only [Bool.false_eq_true, if_false]
      omega

theorem NativeBufferStore.erase_size (self : NativeBufferStore) (key : String) :
    (self.erase key).2.size + (if self.has key then 1 else 0) = self.size := by
  have hlen := length_filter_add_countP self.buffer_.nodes key
  have hcount := NativeBufferStore.erase_count self key
  simp only [UnorderedMap.erase] at hcount
  rw [hcount] at hlen
  by_cases h : key ∈ self.keys
  · rw [if_pos h] at hlen
    rw [(NativeBufferStore.has_iff self key).mpr h, if_pos rfl]
    exact hlen
  · rw [if_neg h] at hlen
    have hf : self.has key = false := by
      rw [← Bool.not_eq_true, NativeBufferStore.has_iff]; exact h
    rw [hf]
    exact hlen

theorem NativeBufferStore.erase_of_not_has (self : NativeBufferStore) (key : String)
    (h : self.has key = false) : (self.erase key).2 = self := by
  refine NativeBufferStore.store_ext_nodes ?_ rfl
  show self.buffer_.nodes.filter (fun node => !(node.1 == key)) = self.buffer_.nodes
  rw [List.filter_eq_self]
  intro node hn
  have hk : key ∉ self.keys := by
    rw [← NativeBufferStore.has_iff, h]; simp
  have hne : node.1 ≠ key := fun e => hk (List.mem_map.mpr ⟨node, hn, e⟩)
  simp [hne]

theorem NativeBufferStore.has_erase_self (self : NativeBufferStore) (key : String) :
    (self.erase key).2.has key = false := by
  rw [← Bool.not_eq_true, NativeBufferStore.has_erase]
  simp

end onyx

namespace onyx

/-- C11 (erase reports presence and is idempotent).  On every buffer,
`erase(k)` returns true exactly when `has(k)` was true before the call; when
it returns true, `has(k)` is false afterwards and `size()` is one less; when
`k` is missing it returns false and leaves the store as it was; and an
`erase(k)` right after an `erase(k)` returns false. -/
theorem erase_reports_presence (self : NativeBufferStore) (k : String) :
    (self.erase k).1 = self.has k ∧
    ((self.erase k).1 = true →
      (self.erase k).2.has k = false ∧ (self.erase k).2.size + 1 = self.size) ∧
    (self.has k = false → (self.erase k).1 = false ∧ (self.erase k).2 = self) ∧
    ((self.erase k).2.erase k).1 = false := by
  refine ⟨NativeBufferStore.erase_fst self k, ?_, ?_, ?_⟩
  · intro h
    rw [NativeBufferStore.erase_fst] at h
    have hsize := NativeBufferStore.erase_size self k
    rw [h, if_pos rfl] at hsize
    exact ⟨NativeBufferStore.has_erase_self self k, hsize⟩
  · intro h
    exact ⟨by rw [NativeBufferStore.erase_fst, h], NativeBufferStore.erase_of_not_has self k h⟩
  · rw [NativeBufferStore.erase_fst, NativeBufferStore.has_erase_self]

theorem erase_reports_presence_witness :
    (sampleStore.erase "d2").1 = true ∧
    sampleStore.has "nonexistent" = false ∧
    ((sampleStore.erase "d2").2.has "d2" = false ∧
      (sampleStore.erase "d2").2.size + 1 = sampleStore.size) ∧
    ((sampleStore.erase "nonexistent").1 = false ∧
      (sampleStore.erase "nonexistent").2 = sampleStore) :=
  ⟨by decide, by decide,
    (erase_reports_presence sampleStore "d2").2.1 (by decide),
    (erase_reports_presence sampleStore "nonexistent").2.2.1 (by decide)⟩

/-- C12 (clear discards everything).  On every buffer, after `clear()` the
call `size()` returns 0, `has(k)` is false and `get(k)` is the null pointer
for every key `k`, and a `drain()` or an `entries()` right after returns an
empty vector. -/
theorem clear_discards_everything (self : NativeBufferStore) :
    self.clear.size = 0 ∧
    (∀ k, self.clear.has k = false) ∧
    (∀ k, self.clear.get k = none) ∧
    self.clear.drain.1 = [] ∧
    self.clear.entries = [] ∧
    (run self [Call.clear, Call.drain]).1 = [Outcome.void, Outcome.vector []] ∧
    (run self [Call.clear, Call.entries]).1 = [Outcome.void, Outcome.vector []] := by
  refine ⟨rfl, fun _ => rfl, fun _ => rfl, rfl, rfl, rfl, rfl⟩

end onyx

/-! ## Absence, and the key field of an entry -/

namespace onyx

/-- C13 (absence is a normal result).  On every buffer and for every key `k`,
`get(k)` returns the null pointer exactly when `has(k)` is false, and
otherwise returns the entry held for `k`; every call of every sequence of
calls returns an outcome. -/
theorem absence_is_normal (self : NativeBufferStore) (k : String) :
    (self.get k = none ↔ self.has k = false) ∧
    (self.has k = true ↔ ∃ e, self.get k = some e ∧ (k, e) ∈ self.entries) ∧
    (∀ calls : List Call, (run self calls).1.length = calls.length) := by
  refine ⟨?_, ?_, ?_⟩
  · rw [NativeBufferStore.has_eq_get_isSome]
    cases self.get k <;> simp
  · rw [NativeBufferStore.has_eq_get_isSome, NativeBufferStore.entries_eq]
    cases hg : self.get k with
    | none => simp
    | some e =>
      simp only [Option.isSome_some, Option.some.injEq, true_iff]
      exact ⟨e, rfl, (NativeBufferStore.get_eq_some_iff self k e).mp hg⟩
  · intro calls
    induction calls generalizing self with
    | nil => rfl
    | cons call rest ih => simp [run_cons, ih]

/-- C14 (set does not validate the key field).  On every buffer, for a key
`k` and an entry `e` whose `key` field differs from `k`, after `set(k, e)` the
call `get(k)` returns `e` unmodified, its `key` field still different from
`k`, `entries()` and `drain()` return the pair `(k, e)`, and what is held
under the key `e.key` is as before. -/
theorem set_does_not_validate_key (self : NativeBufferStore) (k : String)
    (e : NativeBufferEntry) (hne : e.key ≠ k) :
    (self.set k e).get k = some e ∧
    (∃ stored, (self.set k e).get k = some stored ∧ stored.key ≠ k) ∧
    (k, e) ∈ (self.set k e).entries ∧
    (k, e) ∈ (self.set k e).drain.1 ∧
    (self.set k e).get e.key = self.get e.key ∧
    (self.set k e).has e.key = self.has e.key := by
  have hget : (self.set k e).get k = some e := by simp [NativeBufferStore.get_set]
  have hmem : (k, e) ∈ (self.set k e).buffer_.nodes :=
    (NativeBufferStore.get_eq_some_iff _ k e).mp hget
  refine ⟨hget, ⟨e, hget, hne⟩, ?_, ?_, ?_, ?_⟩
  · rw [NativeBufferStore.entries_eq]; exact hmem
  · rw [NativeBufferStore.drain_fst]; exact hmem
  · rw [NativeBufferStore.get_set, if_neg hne]
  · rw [NativeBufferStore.has_set]
    simp [hne]

theorem set_does_not_validate_key_witness :
    mismatchedEntry.key ≠ "d1" ∧
    (sampleStore.set "d1" mismatchedEntry).get "d1" = some mismatchedEntry ∧
    (∃ stored, (sampleStore.set "d1" mismatchedEntry).get "d1" = some stored ∧
      stored.key ≠ "d1") ∧
    ("d1", mismatchedEntry) ∈ (sampleStore.set "d1" mismatchedEntry).entries ∧
    ("d1", mismatchedEntry) ∈ (sampleStore.set "d1" mismatchedEntry).drain.1 ∧
    (sampleStore.set "d1" mismatchedEntry).get mismatchedEntry.key =
      sampleStore.get mismatchedEntry.key ∧
    (sampleStore.set "d1" mismatchedEntry).has mismatchedEntry.key =
      sampleStore.has mismatchedEntry.key :=
  ⟨by decide, set_does_not_validate_key sampleStore "d1" mismatchedEntry (by decide)⟩

end onyx

namespace onyx

theorem keyConsistent_step (self : NativeBufferStore) (call : Call)
    (hinv : self.KeyConsistent) (hcall : ∀ k e, call = Call.set k e → e.key = k) :
    (step self call).2.KeyConsistent := by
  cases call with
  | get key => exact hinv
  | has key => exact hinv
  | size => exact hinv
  | entries => exact hinv
  | clear => intro node hn; cases hn
  | drain => intro node hn; cases hn
  | erase key =>
    intro node hn
    exact hinv node (List.mem_of_mem_filter hn)
  | set key entry =>
    intro node hn
    obtain ⟨k, e⟩ := node
    rcases (NativeBufferStore.mem_set_nodes self key entry k e).mp hn with ⟨hk, he⟩ | ⟨_, hold⟩
    · subst hk he
      exact hcall k e rfl
    · exact hinv (k, e) hold

theorem keyConsistent_run (calls : List Call) :
    ∀ (self : NativeBufferStore), self.KeyConsistent →
      (∀ k e, Call.set k e ∈ calls → e.key = k) → (run self calls).2.KeyConsistent := by
  induction calls with
  | nil => intro self hinv _; exact hinv
  | cons call rest ih =>
    intro self hinv hcontract
    refine ih _ (keyConsistent_step self call hinv ?_) ?_
    · intro k e hc
      exact hcontract k e (hc ▸ List.mem_cons_self _ _)
    · intro k e hc
      exact hcontract k e (List.mem_cons_of_mem _ hc)

/-- C15 (key consistency under the caller contract).  When every
`set(k, e)` of a sequence of calls on a freshly created buffer has
`e.key == k`, then in the store the sequence reaches every entry that `get(k)`
returns has `key` field `k`, and every pair `(k, e)` that `entries()` or
`drain()` returns has `e.key == k`. -/
theorem key_consistency (calls : List Call)
    (hcontract : ∀ k e, Call.set k e ∈ calls → e.key = k) :
    (∀ k e, (run NativeBufferStore.create calls).2.get k = some e → e.key = k) ∧
    (∀ k e, (k, e) ∈ (run NativeBufferStore.create calls).2.entries → e.key = k) ∧
    (∀ k e, (k, e) ∈ (run NativeBufferStore.create calls).2.drain.1 → e.key = k) := by
  have hinv : (run NativeBufferStore.create calls).2.KeyConsistent :=
    keyConsistent_run calls NativeBufferStore.create (fun node hn => by cases hn) hcontract
  refine ⟨?_, ?_, ?_⟩
  · intro k e hg
    exact hinv (k, e) ((NativeBufferStore.get_eq_some_iff _ k e).mp hg)
  · intro k e hm
    rw [NativeBufferStore.entries_eq] at hm
    exact hinv (k, e) hm
  · intro k e hm
    rw [NativeBufferStore.drain_fst] at hm
    exact hinv (k, e) hm

theorem key_consistency_witness :
    (run NativeBufferStore.create sampleContractCalls).2.size = 2 ∧
    (∀ k e, (run NativeBufferStore.create sampleContractCalls).2.get k = some e → e.key = k) ∧
    (∀ k e, (k, e) ∈ (run NativeBufferStore.create sampleContractCalls).2.entries →
      e.key = k) ∧
    (∀ k e, (k, e) ∈ (run NativeBufferStore.create sampleContractCalls).2.drain.1 →
      e.key = k) :=
  ⟨by decide,
    key_consistency sampleContractCalls (by
      intro k e hc
      simp only [sampleContractCalls, List.mem_cons, List.not_mem_nil, or_false, Call.set.injEq,
        reduceCtorEq, false_or] at hc
      rcases hc with ⟨hk, he⟩ | ⟨hk, he⟩ | ⟨hk, he⟩ | ⟨hk, he⟩ <;> subst hk he <;> rfl)⟩

/-! ## Point mutators -/

theorem NativeBufferStore.get_erase_of_ne (self : NativeBufferStore) (key k : String)
    (hne : k ≠ key) : (self.erase key).2.get k = self.get k := by
  cases hg : self.get k with
  | none =>
    rw [NativeBufferStore.get_eq_none_iff] at hg ⊢
    rw [← NativeBufferStore.has_iff] at hg ⊢
    rw [NativeBufferStore.has_erase]
    exact fun h => hg h.1
  | some e =>
    rw [NativeBufferStore.get_eq_some_iff] at hg ⊢
    show (k, e) ∈ self.buffer_.nodes.filter (fun node => !(node.1 == key))
    rw [List.mem_filter]
    exact ⟨hg, by simp [hne]⟩

/-- C16 (point mutators touch only their own key).  On every buffer and for
keys `k` and `k2` with `k2` different from `k`, neither `set(k, e)` nor
`erase(k)` changes what `get(k2)` and `has(k2)` return; `set(k, e)` makes
`size()` one more when `k` was absent and leaves it when `k` was present. -/
theorem point_mutators_frame (self : NativeBufferStore) (k k2 : String)
    (e : NativeBufferEntry) (hne : k2 ≠ k) :
    (self.set k e).get k2 = self.get k2 ∧
    (self.set k e).has k2 = self.has k2 ∧
    (self.erase k).2.get k2 = self.get k2 ∧
    (self.erase k).2.has k2 = self.has k2 ∧
    (self.set k e).size = (if self.has k then self.size else self.size + 1) := by
  refine ⟨?_, ?_, NativeBufferStore.get_erase_of_ne self k k2 hne, ?_,
    NativeBufferStore.size_set self k e⟩
  · rw [NativeBufferStore.get_set, if_neg hne]
  · rw [NativeBufferStore.has_set]; simp [hne]
  · rw [NativeBufferStore.has_eq_get_isSome, NativeBufferStore.get_erase_of_ne self k k2 hne,
      ← NativeBufferStore.has_eq_get_isSome]

theorem point_mutators_frame_witness :
    "d3" ≠ "d1" ∧
    sampleStore.has "d1" = true ∧ sampleStore.has "new" = false ∧
    ((sampleStore.set "d1" mismatchedEntry).get "d3" = sampleStore.get "d3" ∧
      (sampleStore.set "d1" mismatchedEntry).has "d3" = sampleStore.has "d3" ∧
      (sampleStore.erase "d1").2.get "d3" = sampleStore.get "d3" ∧
      (sampleStore.erase "d1").2.has "d3" = sampleStore.has "d3" ∧
      (sampleStore.set "d1" mismatchedEntry).size =
        (if sampleStore.has "d1" then sampleStore.size else sampleStore.size + 1)) ∧
    (sampleStore.set "new" mismatchedEntry).size = sampleStore.size + 1 ∧
    (sampleStore.set "d1" mismatchedEntry).size = sampleStore.size :=
  ⟨by decide, by decide, by decide,
    point_mutators_frame sampleStore "d1" "d3" mismatchedEntry (by decide),
    by decide, by decide⟩

end onyx
